import Mathlib

/-!
Verification of `philosophers-images/process_images.py`.

The script converts a fixed list of portrait files into 50x50 circular
thumbnails: decode and convert to RGBA, center-crop to a square, resize to
the target size, build a single-channel ellipse mask, paste onto a fresh
RGBA canvas and overwrite the alpha band with the mask, then save as PNG.

The embedding below models a raster image as dimensions plus a total pixel
function.  The pure arithmetic of the script (the crop box, the driver loop
over the fixed pair list) is translated directly from the source.  The PIL
primitives the script calls (crop, resize, ellipse drawing, paste, putalpha)
are library code, not part of this repository; each is modelled from the
behaviour the specification document fixes for it, and the doc comment of
such a definition says so.
-/

namespace ProcessImages

/-- One pixel in RGBA mode: red, green, blue, alpha channels, 8 bits each. -/
structure Pixel where
  r : Nat
  g : Nat
  b : Nat
  a : Nat
deriving DecidableEq, Repr

/-- A raster image in RGBA mode: a width, a height and a pixel at every
coordinate (coordinates at or beyond the dimensions are out-of-canvas and
never observed by the operations below). -/
structure Img where
  width : Nat
  height : Nat
  pix : Nat → Nat → Pixel

/-- A single-channel (mode L) image: per-pixel values 0..255. -/
structure MaskImg where
  width : Nat
  height : Nat
  pix : Nat → Nat → Nat

/-- Model of PIL `img.crop((left, top, right, bottom))`: the half-open
rectangle [left, right) x [top, bottom) of the source becomes a new image of
size (right - left) x (bottom - top), pixel (x, y) taken from source pixel
(left + x, top + y). -/
def crop (img : Img) (box : Nat × Nat × Nat × Nat) : Img :=
  { width := box.2.2.1 - box.1
    height := box.2.2.2 - box.2.1
    pix := fun x y => img.pix (box.1 + x) (box.2.1 + y) }

/-- Model of PIL `img.resize(size, Image.Resampling.LANCZOS)`.
Modelled from the spec: the Lanczos kernel is library code whose pixel-level
output the specification declares implementation-specific and out of scope;
what it fixes is that resizing is deterministic and yields an image of
exactly the target dimensions.  We model a deterministic coordinate-remapping
resample with those properties. -/
def resize (img : Img) (size : Nat × Nat) : Img :=
  { width := size.1
    height := size.2
    pix := fun x y => img.pix (x * img.width / size.1) (y * img.height / size.2) }

/-- Model of PIL `Image.new("L", size, c)`: a single-channel image of the
given size with every pixel equal to `c`. -/
def newL (size : Nat × Nat) (c : Nat) : MaskImg :=
  { width := size.1, height := size.2, pix := fun _ _ => c }

/-- Model of PIL `Image.new("RGBA", size, c)`: an RGBA image of the given
size with every pixel equal to `c`. -/
def newRGBA (size : Nat × Nat) (c : Pixel) : Img :=
  { width := size.1, height := size.2, pix := fun _ _ => c }

/-- Membership test for the filled ellipse inscribed in the bounding box
(x0, y0, x1, y1): center ((x0 + x1)/2, (y0 + y1)/2), semi-axes (x1 - x0)/2
and (y1 - y0)/2, with denominators cleared over the integers.
Modelled from the spec: the rasterization of PIL `ImageDraw.ellipse` is
library code; the specification fixes the filled set as the pixels (x, y)
with (x - cx)^2/(a)^2 + (y - cy)^2/(b)^2 <= 1. -/
def inEllipse (box : Nat × Nat × Nat × Nat) (x y : Nat) : Bool :=
  decide ((2 * (x : Int) - box.1 - box.2.2.1) ^ 2 * ((box.2.2.2 : Int) - box.2.1) ^ 2
      + (2 * (y : Int) - box.2.1 - box.2.2.2) ^ 2 * ((box.2.2.1 : Int) - box.1) ^ 2
    ≤ ((box.2.2.1 : Int) - box.1) ^ 2 * ((box.2.2.2 : Int) - box.2.1) ^ 2)

/-- Model of `draw.ellipse(box, fill=v)` on a mask image: pixels inside the
inscribed ellipse of `box` are set to `v`, all other pixels keep their
previous value.  The ellipse fill itself is modelled from the spec, see
`inEllipse`. -/
def draw_ellipse (m : MaskImg) (box : Nat × Nat × Nat × Nat) (v : Nat) : MaskImg :=
  { m with pix := fun x y => if inEllipse box x y then v else m.pix x y }

/-- Model of PIL `canvas.paste(img, (ox, oy))` for a four-channel `img` and
no mask argument: all four channels of `img` are copied onto the region it
covers; pixels outside that region keep the canvas value. -/
def paste (canvas : Img) (img : Img) (ox oy : Nat) : Img :=
  { canvas with pix := fun x y =>
      if ox ≤ x ∧ x < ox + img.width ∧ oy ≤ y ∧ y < oy + img.height
        then img.pix (x - ox) (y - oy) else canvas.pix x y }

/-- Model of PIL `img.putalpha(mask)` for a mask of the same size: the alpha
band is overwritten with the mask value, the RGB bands are unchanged. -/
def putalpha (img : Img) (mask : MaskImg) : Img :=
  { img with pix := fun x y => { img.pix x y with a := mask.pix x y } }

/-- The center-square crop box computed in `create_rounded_portrait`
(process_images.py lines 17-24):
`min_dim = min(width, height)`, `left = (width - min_dim) // 2`,
`top = (height - min_dim) // 2`, `right = left + min_dim`,
`bottom = top + min_dim`.  Python floor division on these non-negative
operands coincides with natural-number division. -/
def crop_box (width height : Nat) : Nat × Nat × Nat × Nat :=
  let min_dim := min width height
  let left := (width - min_dim) / 2
  let top := (height - min_dim) / 2
  (left, top, left + min_dim, top + min_dim)

/-- The image after the crop and resize steps of `create_rounded_portrait`
(lines 27-30): center-square crop followed by the resize to `size`. -/
def resized (img : Img) (size : Nat × Nat) : Img :=
  resize (crop img (crop_box img.width img.height)) size

/-- Model of `create_rounded_portrait(input_path, output_path, size=(50, 50))`
(process_images.py lines 10-44), acting on the decoded RGBA input image and
returning the output image that is saved to `output_path`:
crop to the center square, resize to `size`, build the ellipse mask
`draw.ellipse((0, 0) + size, fill=255)` on a mask initialized to 0, paste the
resized image at (0, 0) onto a fresh transparent RGBA canvas, and overwrite
the canvas alpha band with the mask. -/
def create_rounded_portrait (img : Img) (size : Nat × Nat := (50, 50)) : Img :=
  let img1 := resized img size
  let mask := draw_ellipse (newL size 0) (0, 0, size.1, size.2) 255
  let output := newRGBA size ⟨0, 0, 0, 0⟩
  let output1 := paste output img1 0 0
  putalpha output1 mask

/-- The fixed driver list of (input filename, output filename) pairs,
`main` lines 48-54, in source order. -/
def philosophers : List (String × String) :=
  [("socrates.jpg", "socrates-rounded.png"),
   ("plato.jpg", "plato-rounded.png"),
   ("aristotle.jpg", "aristotle-rounded.png"),
   ("nietzsche.jpg", "nietzsche-rounded.png"),
   ("descartes.jpg", "descartes-rounded.png")]

/-- One observable driver action per pair: either the transform was invoked
(`created`, recording the input name, the output name and the output size of
the invocation) or the input was missing and the warning naming it was
printed (`warning`). -/
inductive Event where
  | created (input output : String) (size : Nat × Nat)
  | warning (input : String)
deriving DecidableEq, Repr

/-- The working directory, as a map from filename to the decoded image
content of the file, `none` when the file does not exist.  `os.path.exists`
is `Option.isSome`; decode errors are out of scope (every present file is
modelled as decodable, matching the driver scenarios verified here). -/
def Store : Type := String → Option Img

/-- Writing the output file: `output.save(output_path, "PNG")`. -/
def writeFile (σ : Store) (name : String) (img : Img) : Store :=
  fun f => if f = name then some img else σ f

/-- The driver loop of `main` (lines 56-60) over a list of pairs: for each
pair whose input exists, call `create_rounded_portrait(input, output)` (with
the default size (50, 50)) and record the written file; otherwise print the
warning naming the input and continue with the remaining pairs.  Returns the
final directory state and the list of events in order. -/
def run_pairs (σ : Store) : List (String × String) → Store × List Event
  | [] => (σ, [])
  | p :: ps =>
    match σ p.1 with
    | some img =>
      let r := run_pairs (writeFile σ p.2 (create_rounded_portrait img)) ps
      (r.1, Event.created p.1 p.2 (50, 50) :: r.2)
    | none =>
      let r := run_pairs σ ps
      (r.1, Event.warning p.1 :: r.2)

/-- `main()` (lines 47-63): run the loop over the fixed pair list. -/
def main (σ : Store) : Store × List Event :=
  run_pairs σ philosophers

/-- The event a single pair produces, as a function of the directory state
its existence check reads. -/
def eventFor (σ : Store) (p : String × String) : Event :=
  match σ p.1 with
  | some _ => Event.created p.1 p.2 (50, 50)
  | none => Event.warning p.1

/-- No pair list has an input filename that is also an output filename: this
holds for `philosophers` (inputs are .jpg, outputs are .png) and makes the
existence checks independent of the files the run writes. -/
def InputsOutputsDisjoint (ps : List (String × String)) : Prop :=
  ∀ p ∈ ps, ∀ q ∈ ps, p.1 ≠ q.2

/-- A file that is not the output of any pair is never written by the loop. -/
theorem run_pairs_untouched (ps : List (String × String)) (σ : Store) (f : String)
    (hf : ∀ q ∈ ps, f ≠ q.2) : (run_pairs σ ps).1 f = σ f := by
  induction ps generalizing σ with
  | nil => rfl
  | cons p ps ih =>
    have hp : f ≠ p.2 := hf p (List.mem_cons_self p ps)
    have hf2 : ∀ q ∈ ps, f ≠ q.2 := fun q hq => hf q (List.mem_cons_of_mem p hq)
    cases h : σ p.1 with
    | some img =>
      simp only [run_pairs, h]
      rw [ih _ hf2]
      simp [writeFile, hp]
    | none =>
      simp only [run_pairs, h]
      exact ih _ hf2

/-- The loop emits exactly one event per pair. -/
theorem run_pairs_length (ps : List (String × String)) (σ : Store) :
    (run_pairs σ ps).2.length = ps.length := by
  induction ps generalizing σ with
  | nil => rfl
  | cons p ps ih =>
    cases h : σ p.1 with
    | some img => simp only [run_pairs, h, List.length_cons, ih]
    | none => simp only [run_pairs, h, List.length_cons, ih]

/-- When inputs and outputs are disjoint, the event list is the pointwise
image of the pair list under the existence check on the initial state. -/
theorem run_pairs_events (ps : List (String × String)) (σ : Store)
    (hd : InputsOutputsDisjoint ps) :
    (run_pairs σ ps).2 = ps.map (eventFor σ) := by
  induction ps generalizing σ with
  | nil => rfl
  | cons p ps ih =>
    have hd2 : InputsOutputsDisjoint ps := fun a ha q hq =>
      hd a (List.mem_cons_of_mem p ha) q (List.mem_cons_of_mem p hq)
    cases h : σ p.1 with
    | some img =>
      have hh : eventFor σ p = Event.created p.1 p.2 (50, 50) := by
        simp [eventFor, h]
      simp only [run_pairs, h, List.map_cons, hh, List.cons.injEq]
      refine ⟨trivial, ?_⟩
      rw [ih _ hd2]
      refine List.map_congr_left (fun a ha => ?_)
      have hao : a.1 ≠ p.2 :=
        hd a (List.mem_cons_of_mem p ha) p (List.mem_cons_self p ps)
      simp [eventFor, writeFile, hao]
    | none =>
      have hh : eventFor σ p = Event.warning p.1 := by
        simp [eventFor, h]
      simp only [run_pairs, h, List.map_cons, hh, List.cons.injEq]
      exact ⟨trivial, ih _ hd2⟩

/-- Two runs whose initial states agree on every input of the (disjoint)
pair list write the same files with the same contents: every file either
ends equal in the two final states, or is untouched by both runs. -/
theorem run_pairs_dichotomy (ps : List (String × String)) (σ τ : Store)
    (hd : InputsOutputsDisjoint ps)
    (ha : ∀ p ∈ ps, τ p.1 = σ p.1) (f : String) :
    (run_pairs τ ps).1 f = (run_pairs σ ps).1 f ∨
      ((run_pairs τ ps).1 f = τ f ∧ (run_pairs σ ps).1 f = σ f) := by
  induction ps generalizing σ τ with
  | nil => exact Or.inr ⟨rfl, rfl⟩
  | cons p ps ih =>
    have hd2 : InputsOutputsDisjoint ps := fun a haa q hq =>
      hd a (List.mem_cons_of_mem p haa) q (List.mem_cons_of_mem p hq)
    have hτσ : τ p.1 = σ p.1 := ha p (List.mem_cons_self p ps)
    cases h : σ p.1 with
    | some img =>
      have h2 : τ p.1 = some img := hτσ.trans h
      have ha2 : ∀ a ∈ ps,
          (writeFile τ p.2 (create_rounded_portrait img)) a.1
            = (writeFile σ p.2 (create_rounded_portrait img)) a.1 := by
        intro a haa
        by_cases hap : a.1 = p.2
        · simp [writeFile, hap]
        · simpa [writeFile, hap] using ha a (List.mem_cons_of_mem p haa)
      simp only [run_pairs, h, h2]
      rcases ih (writeFile σ p.2 (create_rounded_portrait img))
          (writeFile τ p.2 (create_rounded_portrait img)) hd2 ha2 with heq | ⟨h1, h2x⟩
      · exact Or.inl heq
      · by_cases hfp : f = p.2
        · refine Or.inl ?_
          rw [h1, h2x]
          simp [writeFile, hfp]
        · refine Or.inr ?_
          rw [h1, h2x]
          simp [writeFile, hfp]
    | none =>
      have h2 : τ p.1 = none := hτσ.trans h
      simp only [run_pairs, h, h2]
      exact ih σ τ hd2 (fun a haa => ha a (List.mem_cons_of_mem p haa))

/-- The fixed list has disjoint inputs and outputs. -/
theorem philosophers_disjoint : InputsOutputsDisjoint philosophers := by
  unfold InputsOutputsDisjoint
  decide

/-- A concrete sample input image used by the witnesses. -/
def sampleImg : Img :=
  { width := 4, height := 2, pix := fun _ _ => ⟨10, 20, 30, 255⟩ }

/-- A concrete sample directory containing only `socrates.jpg`. -/
def sampleStore : Store :=
  fun f => if f = ("socrates.jpg" : String) then some sampleImg else none

/-- C3: the center-crop box is computed exactly as minDim = min(width,
height), left = floor((width - minDim)/2), top = floor((height - minDim)/2),
right = left + minDim, bottom = top + minDim, and cropping to the half-open
rectangle [left, right) x [top, bottom) yields a square sub-image of side
min(width, height) whose pixels are the source pixels translated by
(left, top) (no distortion of the aspect ratio). -/
theorem crop_box_is_center_square (img : Img) :
    crop_box img.width img.height =
      ((img.width - min img.width img.height) / 2,
       (img.height - min img.width img.height) / 2,
       (img.width - min img.width img.height) / 2 + min img.width img.height,
       (img.height - min img.width img.height) / 2 + min img.width img.height)
    ∧ (crop img (crop_box img.width img.height)).width = min img.width img.height
    ∧ (crop img (crop_box img.width img.height)).height = min img.width img.height
    ∧ ∀ x y, (crop img (crop_box img.width img.height)).pix x y
        = img.pix ((img.width - min img.width img.height) / 2 + x)
            ((img.height - min img.width img.height) / 2 + y) := by
  refine ⟨rfl, ?_, ?_, fun x y => rfl⟩
  · simp only [crop, crop_box]
    omega
  · simp only [crop, crop_box]
    omega

/-- C8: on an already-square input the crop box is the whole image:
left = 0, top = 0, right = width, bottom = height. -/
theorem crop_box_square_is_identity (w h : Nat) (hsq : w = h) :
    crop_box w h = (0, 0, w, h) := by
  subst hsq
  simp [crop_box]

/-- C8 witness: the crop box of a 7 x 7 image is the whole image. -/
theorem crop_box_square_is_identity_witness : crop_box 7 7 = (0, 0, 7, 7) :=
  crop_box_square_is_identity 7 7 rfl

/-- C9: the crop removes pixels symmetrically from the longer dimension,
with floor division putting the single extra removed pixel on the
right/bottom side exactly when the excess is odd: for width > height,
(width - right) - left = 1 when width - minDim is odd and
left = width - right when it is even; symmetrically when height > width. -/
theorem crop_box_symmetric_trim (w h : Nat) :
    (h < w →
      ((w - h) % 2 = 1 → (w - (crop_box w h).2.2.1) - (crop_box w h).1 = 1)
      ∧ ((w - h) % 2 = 0 → (crop_box w h).1 = w - (crop_box w h).2.2.1))
    ∧ (w < h →
      ((h - w) % 2 = 1 → (h - (crop_box w h).2.2.2) - (crop_box w h).2.1 = 1)
      ∧ ((h - w) % 2 = 0 → (crop_box w h).2.1 = h - (crop_box w h).2.2.2)) := by
  simp only [crop_box]
  constructor
  · intro hw
    have hm : min w h = h := min_eq_right hw.le
    rw [hm]
    omega
  · intro hh
    have hm : min w h = w := min_eq_left hh.le
    rw [hm]
    omega

/-- C9 witness: for a 5 x 2 image the excess 3 is odd and the crop leaves a
one-pixel asymmetry, and for a 6 x 2 image the excess 4 is even and the trim
is exactly symmetric. -/
theorem crop_box_symmetric_trim_witness :
    ((5 - (crop_box 5 2).2.2.1) - (crop_box 5 2).1 = 1)
    ∧ ((crop_box 6 2).1 = 6 - (crop_box 6 2).2.2.1) :=
  ⟨((crop_box_symmetric_trim 5 2).1 (by decide)).1 (by decide),
   ((crop_box_symmetric_trim 6 2).1 (by decide)).2 (by decide)⟩

/-- C10: for every input size the crop box is well-formed and in bounds,
and the cropped region is a square of side min(width, height) lying inside
the source image. -/
theorem crop_box_in_bounds (w h : Nat) (hw : 1 ≤ w) (hh : 1 ≤ h) :
    (crop_box w h).1 ≤ (crop_box w h).2.2.1
    ∧ (crop_box w h).2.2.1 ≤ w
    ∧ (crop_box w h).2.1 ≤ (crop_box w h).2.2.2
    ∧ (crop_box w h).2.2.2 ≤ h
    ∧ (crop_box w h).2.2.1 - (crop_box w h).1 = min w h
    ∧ (crop_box w h).2.2.2 - (crop_box w h).2.1 = min w h := by
  simp only [crop_box]
  omega

/-- C10 witness: the crop box of a 3 x 5 image is in bounds. -/
theorem crop_box_in_bounds_witness :
    (1 ≤ 3 ∧ 1 ≤ 5)
    ∧ ((crop_box 3 5).1 ≤ (crop_box 3 5).2.2.1
      ∧ (crop_box 3 5).2.2.1 ≤ 3
      ∧ (crop_box 3 5).2.1 ≤ (crop_box 3 5).2.2.2
      ∧ (crop_box 3 5).2.2.2 ≤ 5
      ∧ (crop_box 3 5).2.2.1 - (crop_box 3 5).1 = min 3 5
      ∧ (crop_box 3 5).2.2.2 - (crop_box 3 5).2.1 = min 3 5) :=
  ⟨⟨by decide, by decide⟩, crop_box_in_bounds 3 5 (by decide) (by decide)⟩

/-- C2: for every decodable input image (any width and height at least 1,
any aspect ratio) the output image has exactly the requested dimensions,
and with the default size of the driver those are 50 x 50; the output is an
RGBA image by construction (the `Img` type carries all four channels). -/
theorem output_has_requested_dims (img : Img) (size : Nat × Nat)
    (hw : 1 ≤ img.width) (hh : 1 ≤ img.height) :
    (create_rounded_portrait img size).width = size.1
    ∧ (create_rounded_portrait img size).height = size.2
    ∧ (create_rounded_portrait img).width = 50
    ∧ (create_rounded_portrait img).height = 50 :=
  ⟨rfl, rfl, rfl, rfl⟩

/-- C2 witness: a 4 x 2 input produces a 7 x 9 output when size (7, 9) is
requested, and a 50 x 50 output under the default size. -/
theorem output_has_requested_dims_witness :
    (1 ≤ sampleImg.width ∧ 1 ≤ sampleImg.height)
    ∧ ((create_rounded_portrait sampleImg (7, 9)).width = 7
      ∧ (create_rounded_portrait sampleImg (7, 9)).height = 9
      ∧ (create_rounded_portrait sampleImg).width = 50
      ∧ (create_rounded_portrait sampleImg).height = 50) :=
  ⟨⟨by decide, by decide⟩,
   output_has_requested_dims sampleImg (7, 9) (by decide) (by decide)⟩

/-- The paste of the resized image onto the fresh canvas covers every pixel
of the output, so the pasted canvas equals the resized image there. -/
theorem paste_covers (img : Img) (size : Nat × Nat) (x y : Nat)
    (hx : x < size.1) (hy : y < size.2) :
    (paste (newRGBA size ⟨0, 0, 0, 0⟩) (resized img size) 0 0).pix x y
      = (resized img size).pix x y := by
  simp only [paste]
  rw [if_pos ⟨Nat.zero_le x, by simpa [resized, resize] using hx,
        Nat.zero_le y, by simpa [resized, resize] using hy⟩]
  simp

/-- C6: the final `putalpha` changes only the alpha channel: at every output
pixel the final red, green and blue values equal those of the resized image
as left by the paste, including pixels whose final alpha is 0 (masked-out
RGB is not zeroed). -/
theorem putalpha_changes_only_alpha (img : Img) (size : Nat × Nat) (x y : Nat)
    (hx : x < size.1) (hy : y < size.2) :
    ((create_rounded_portrait img size).pix x y).r = ((resized img size).pix x y).r
    ∧ ((create_rounded_portrait img size).pix x y).g = ((resized img size).pix x y).g
    ∧ ((create_rounded_portrait img size).pix x y).b = ((resized img size).pix x y).b := by
  refine ⟨?_, ?_, ?_⟩ <;>
    simp only [create_rounded_portrait, putalpha] <;>
    rw [paste_covers img size x y hx hy]

/-- C6 witness: at pixel (0, 0) of the default-size output of the sample
image (a fully transparent corner pixel) the RGB channels equal the resized
RGB. -/
theorem putalpha_changes_only_alpha_witness :
    ((0 : Nat) < 50 ∧ (0 : Nat) < 50)
    ∧ (((create_rounded_portrait sampleImg (50, 50)).pix 0 0).r
        = ((resized sampleImg (50, 50)).pix 0 0).r
      ∧ ((create_rounded_portrait sampleImg (50, 50)).pix 0 0).g
        = ((resized sampleImg (50, 50)).pix 0 0).g
      ∧ ((create_rounded_portrait sampleImg (50, 50)).pix 0 0).b
        = ((resized sampleImg (50, 50)).pix 0 0).b) :=
  ⟨⟨by decide, by decide⟩,
   putalpha_changes_only_alpha sampleImg (50, 50) 0 0 (by decide) (by decide)⟩

/-- C1: at every output pixel the alpha channel is exactly 255 when
(x - w/2)^2/(w/2)^2 + (y - h/2)^2/(h/2)^2 <= 1 (stated with denominators
cleared over the integers) and exactly 0 otherwise; no pixel has an alpha
value strictly between 0 and 255. -/
theorem alpha_is_hard_edged_ellipse (img : Img) (size : Nat × Nat) (x y : Nat)
    (hx : x < size.1) (hy : y < size.2) :
    (((create_rounded_portrait img size).pix x y).a = 255 ↔
      (2 * (x : Int) - size.1) ^ 2 * (size.2 : Int) ^ 2
        + (2 * (y : Int) - size.2) ^ 2 * (size.1 : Int) ^ 2
        ≤ (size.1 : Int) ^ 2 * (size.2 : Int) ^ 2)
    ∧ (((create_rounded_portrait img size).pix x y).a = 0
      ∨ ((create_rounded_portrait img size).pix x y).a = 255) := by
  have ha : ((create_rounded_portrait img size).pix x y).a
      = (draw_ellipse (newL size 0) (0, 0, size.1, size.2) 255).pix x y := rfl
  rw [ha]
  simp only [draw_ellipse, newL]
  by_cases hin : inEllipse (0, 0, size.1, size.2) x y = true
  · rw [if_pos hin]
    have hineq : (2 * (x : Int) - size.1) ^ 2 * (size.2 : Int) ^ 2
        + (2 * (y : Int) - size.2) ^ 2 * (size.1 : Int) ^ 2
        ≤ (size.1 : Int) ^ 2 * (size.2 : Int) ^ 2 := by
      have h := of_decide_eq_true hin
      simpa using h
    exact ⟨iff_of_true rfl hineq, Or.inr rfl⟩
  · rw [if_neg hin]
    have hineq : ¬((2 * (x : Int) - size.1) ^ 2 * (size.2 : Int) ^ 2
        + (2 * (y : Int) - size.2) ^ 2 * (size.1 : Int) ^ 2
        ≤ (size.1 : Int) ^ 2 * (size.2 : Int) ^ 2) := by
      have h := of_decide_eq_false (Bool.of_not_eq_true hin)
      simpa using h
    exact ⟨iff_of_false (by decide) hineq, Or.inl rfl⟩

/-- C1 witness: in the default 50 x 50 output of the sample image, the
center pixel (25, 25) is inside the inscribed circle and fully opaque, and
the corner pixel (0, 0) is outside and fully transparent; both have alpha
equal to 0 or 255. -/
theorem alpha_is_hard_edged_ellipse_witness :
    (((create_rounded_portrait sampleImg (50, 50)).pix 25 25).a = 255 ↔
      (2 * ((25 : Nat) : Int) - 50) ^ 2 * ((50 : Nat) : Int) ^ 2
        + (2 * ((25 : Nat) : Int) - 50) ^ 2 * ((50 : Nat) : Int) ^ 2
        ≤ ((50 : Nat) : Int) ^ 2 * ((50 : Nat) : Int) ^ 2)
    ∧ (((create_rounded_portrait sampleImg (50, 50)).pix 25 25).a = 0
      ∨ ((create_rounded_portrait sampleImg (50, 50)).pix 25 25).a = 255) :=
  alpha_is_hard_edged_ellipse sampleImg (50, 50) 25 25 (by decide) (by decide)

/-- C4: a missing input file is not fatal: the driver emits a warning naming
that exact filename and continues, emitting exactly one event per pair; and
when no input file exists at all, the run leaves every file absent (zero
outputs created), emits exactly the five warnings in order, and completes. -/
theorem missing_input_warns_and_continues (σ : Store) (p : String × String)
    (hp : p ∈ philosophers) (hmiss : σ p.1 = none) :
    Event.warning p.1 ∈ (main σ).2
    ∧ (main σ).2.length = 5
    ∧ (∀ f, (main (fun _ => none)).1 f = none)
    ∧ (main (fun _ => none)).2
        = [Event.warning ("socrates.jpg"), Event.warning ("plato.jpg"),
           Event.warning ("aristotle.jpg"), Event.warning ("nietzsche.jpg"),
           Event.warning ("descartes.jpg")] := by
  refine ⟨?_, ?_, fun f => rfl, rfl⟩
  · have hev : eventFor σ p = Event.warning p.1 := by simp [eventFor, hmiss]
    have : (main σ).2 = philosophers.map (eventFor σ) :=
      run_pairs_events philosophers σ philosophers_disjoint
    rw [this, ← hev]
    exact List.mem_map_of_mem (eventFor σ) hp
  · exact run_pairs_length philosophers σ

/-- C4 witness: with no files present, the warning naming `socrates.jpg` is
among the emitted events. -/
theorem missing_input_warns_and_continues_witness :
    ("socrates.jpg", "socrates-rounded.png") ∈ philosophers
    ∧ Event.warning ("socrates.jpg") ∈ (main (fun _ => none)).2 :=
  ⟨by decide,
   (missing_input_warns_and_continues (fun _ => none)
      ("socrates.jpg", "socrates-rounded.png") (by decide) rfl).1⟩

/-- C5: the driver iterates exactly the five fixed, case-sensitive pairs in
source order; the events of a run are exactly the pointwise image of that
list (so the order is preserved); a pair with an existing input yields the
transform invocation recorded with output size (50, 50); and the driver
call `create_rounded_portrait(input_file, output_file)` uses the default
size, which is exactly (50, 50). -/
theorem driver_fixed_pairs_and_size (σ : Store) (img : Img) :
    philosophers
      = [("socrates.jpg", "socrates-rounded.png"),
         ("plato.jpg", "plato-rounded.png"),
         ("aristotle.jpg", "aristotle-rounded.png"),
         ("nietzsche.jpg", "nietzsche-rounded.png"),
         ("descartes.jpg", "descartes-rounded.png")]
    ∧ (main σ).2 = philosophers.map (eventFor σ)
    ∧ (∀ p ∈ philosophers, (σ p.1).isSome →
        eventFor σ p = Event.created p.1 p.2 (50, 50))
    ∧ create_rounded_portrait img = create_rounded_portrait img (50, 50) := by
  refine ⟨rfl, run_pairs_events philosophers σ philosophers_disjoint, ?_, rfl⟩
  intro p _ hs
  cases h : σ p.1 with
  | some i => simp [eventFor, h]
  | none => simp [h] at hs

/-- C5 witness: in the sample directory containing only `socrates.jpg`, the
first pair's event is the transform invocation at size (50, 50). -/
theorem driver_fixed_pairs_and_size_witness :
    eventFor sampleStore ("socrates.jpg", "socrates-rounded.png")
      = Event.created ("socrates.jpg") ("socrates-rounded.png") (50, 50) :=
  (driver_fixed_pairs_and_size sampleStore sampleImg).2.2.1
    ("socrates.jpg", "socrates-rounded.png") (by decide) (by decide)

/-- C7: the transform and the driver are deterministic, and re-running the
driver on the directory state left by a first run reads the same inputs,
emits the same events and overwrites each output with identical content:
the second run is the identity on the first run's result. -/
theorem rerun_writes_identical_outputs (σ : Store) :
    main ((main σ).1) = main σ := by
  have hd := philosophers_disjoint
  have hagree : ∀ p ∈ philosophers, (main σ).1 p.1 = σ p.1 := by
    intro p hp
    exact run_pairs_untouched philosophers σ p.1 (fun q hq => hd p hp q hq)
  have hstore : (main ((main σ).1)).1 = (main σ).1 := by
    funext f
    rcases run_pairs_dichotomy philosophers σ ((main σ).1) hd hagree f with
      h | ⟨h1, _⟩
    · exact h
    · exact h1
  have hev : (main ((main σ).1)).2 = (main σ).2 := by
    show (run_pairs ((main σ).1) philosophers).2 = (run_pairs σ philosophers).2
    rw [run_pairs_events philosophers ((main σ).1) hd,
      run_pairs_events philosophers σ hd]
    refine List.map_congr_left (fun p hp => ?_)
    simp [eventFor, hagree p hp]
  exact Prod.ext hstore hev

end ProcessImages
